import Mathlib

set_option maxHeartbeats 1000000

/-!
Verification of the document-to-search-index synchronization engine of
`apostrophe-elasticsearch` (`src/index.js`), as a shallow embedding.

JavaScript values are modelled by `JValue` (with `jsUndefined` for `undefined`);
JavaScript objects are ordered association lists; machine state that the
module mutates (`self.indexNamesSeen`) is threaded explicitly; functions
that can `throw` return `Except String`.
-/

namespace ApostropheES

/-- JavaScript-style values as manipulated by `src/index.js`: documents,
projected bodies and option objects are JSON-like; `jsUndefined` stands for
JavaScript `undefined` (reading an absent property yields `jsUndefined`). -/
inductive JValue where
  | jsUndefined
  | jnull
  | jbool (b : Bool)
  | jnum (n : Int)
  | jstr (s : String)
  | jarr (elems : List JValue)
  | jobj (fields : List (String × JValue))

/-- Property read `obj[k]` on a JavaScript object: the value bound to the
first occurrence of the key, or `undefined` when absent. -/
def getKey (obj : List (String × JValue)) (k : String) : JValue :=
  match obj with
  | [] => .jsUndefined
  | (k', v) :: rest => if k' = k then v else getKey rest k

/-- The entry bound to a key, distinguishing an absent key (`none`) from a
key present with value `undefined` (`some .jsUndefined`), i.e. JavaScript `k in obj`. -/
def getEntry (obj : List (String × JValue)) (k : String) : Option JValue :=
  match obj with
  | [] => none
  | (k', v) :: rest => if k' = k then some v else getEntry rest k

/-- JavaScript `k in obj`: whether the key is present at all. -/
def hasKeyE (obj : List (String × JValue)) (k : String) : Bool :=
  match obj with
  | [] => false
  | (k', _) :: rest => k' = k || hasKeyE rest k

/-- Property write `obj[k] = v`: replaces the first binding in place or
appends a new one (JavaScript property insertion order). -/
def setKey (obj : List (String × JValue)) (k : String) (v : JValue) :
    List (String × JValue) :=
  match obj with
  | [] => [(k, v)]
  | (k', v') :: rest => if k' = k then (k, v) :: rest else (k', v') :: setKey rest k v

/-- JavaScript `delete obj[k]`. -/
def delKey (obj : List (String × JValue)) (k : String) : List (String × JValue) :=
  match obj with
  | [] => []
  | (k', v') :: rest => if k' = k then delKey rest k else (k', v') :: delKey rest k

/-- JavaScript falsiness of a value (`!v`). -/
def isFalsy (v : JValue) : Bool :=
  match v with
  | .jsUndefined => true
  | .jnull => true
  | .jbool b => !b
  | .jnum n => n == 0
  | .jstr s => s == ""
  | .jarr _ => false
  | .jobj _ => false

/-- JavaScript truthiness of a value. -/
def isTruthy (v : JValue) : Bool := !(isFalsy v)

/-- Whether `typeof v === 'object'` in JavaScript: true for `null`, plain
objects and arrays, false for `undefined` and the primitive types. -/
def typeofIsObject (v : JValue) : Bool :=
  match v with
  | .jnull => true
  | .jobj _ => true
  | .jarr _ => true
  | _ => false

/-- One hexadecimal digit, lowercase, as produced by `JSON.stringify` escapes. -/
def hexDigit (n : Nat) : Char :=
  if n < 10 then Char.ofNat (48 + n) else Char.ofNat (87 + n)

/-- `JSON.stringify` escaping of one character inside a string literal. -/
def jsonEscapeChar (c : Char) : String :=
  if c = '"' then "\\\""
  else if c = '\\' then "\\\\"
  else if c = '\x08' then "\\b"
  else if c = '\x09' then "\\t"
  else if c = '\x0a' then "\\n"
  else if c = '\x0c' then "\\f"
  else if c = '\x0d' then "\\r"
  else if c.toNat < 32 then
    "\\u00" ++ String.mk [hexDigit (c.toNat / 16), hexDigit (c.toNat % 16)]
  else String.mk [c]

/-- `JSON.stringify` of a string value. -/
def jsonQuote (s : String) : String :=
  "\"" ++ String.join (s.data.map jsonEscapeChar) ++ "\""

mutual

/-- `JSON.stringify(v)`: `none` models the JavaScript result `undefined`
(stringifying `undefined` itself); inside arrays `undefined` prints as
`null`, inside objects the key is dropped. -/
def jsonStringify (v : JValue) : Option String :=
  match v with
  | .jsUndefined => none
  | .jnull => some "null"
  | .jbool b => some (if b then "true" else "false")
  | .jnum n => some (toString n)
  | .jstr s => some (jsonQuote s)
  | .jarr xs => some ("[" ++ String.intercalate "," (jsonStringifyArr xs) ++ "]")
  | .jobj kvs => some ("\x7b" ++ String.intercalate "," (jsonStringifyObj kvs) ++ "\x7d")

/-- Serialized forms of array elements (`undefined` elements print as `null`). -/
def jsonStringifyArr (xs : List JValue) : List String :=
  match xs with
  | [] => []
  | v :: rest => ((jsonStringify v).getD "null") :: jsonStringifyArr rest

/-- Serialized `key:value` members of an object (`undefined` values dropped). -/
def jsonStringifyObj (kvs : List (String × JValue)) : List String :=
  match kvs with
  | [] => []
  | (k, v) :: rest =>
    match jsonStringify v with
    | some s => (jsonQuote k ++ ":" ++ s) :: jsonStringifyObj rest
    | none => jsonStringifyObj rest

end

/-- `String.prototype.toLowerCase` on one character (ASCII range, which is
all the source relies on for index names). -/
def jsCharToLower (c : Char) : Char :=
  if 65 ≤ c.toNat ∧ c.toNat ≤ 90 then Char.ofNat (c.toNat + 32) else c

/-- `s.toLowerCase()`. -/
def jsToLower (s : String) : String :=
  String.mk (s.data.map jsCharToLower)

/-- `src/index.js` lines 14-16 (`connect`): the fixed physical base name,
`self.docIndex = self.baseName.toLowerCase() + 'aposdocs'`. -/
def docIndexOf (baseName : String) : String :=
  jsToLower baseName ++ "aposdocs"

/-- `locale.replace(/[^a-z]/g, '')`: strip every character outside `a-z`. -/
def stripNonLower (s : String) : String :=
  String.mk (s.data.filter (fun c => decide ('a' ≤ c) && decide (c ≤ 'z')))

/-- Whether a character is a lowercase ASCII letter. -/
def isLowerAZ (c : Char) : Bool :=
  decide ('a' ≤ c) && decide (c ≤ 'z')

/-- The "flat value" filter of `getBulkIndexCommandsForDoc`
(`src/index.js` lines 52-59): arrays pass when `typeof value[0] !== 'object'`
(an absent `value[0]` reads as `undefined`); non-arrays pass when
`typeof value !== 'object'` (so `null`, whose `typeof` is `'object'`, fails). -/
def isGoodValue (v : JValue) : Bool :=
  match v with
  | .jarr xs => !(typeofIsObject (xs.headD .jsUndefined))
  | v => !(typeofIsObject v)

/-- The guard on the shadow exact-match key (`src/index.js` line 65):
`(!doc[field]) || JSON.stringify(doc[field]).length < 4096`; the `none`
branch is unreachable because `undefined` is falsy. -/
def shadowOk (v : JValue) : Bool :=
  isFalsy v ||
    (match jsonStringify v with
     | some s => s.length < 4096
     | none => false)

/-- One iteration of the `_.each(self.fields, ...)` loop of
`getBulkIndexCommandsForDoc` (`src/index.js` lines 50-69): copy the field
when its value is flat, and additionally write `field + 'ESExact'` with the
same value when the shadow guard passes. -/
def projectField (doc : List (String × JValue)) (body : List (String × JValue))
    (field : String) : List (String × JValue) :=
  let value := getKey doc field
  if isGoodValue value then
    let body1 := setKey body field value
    if shadowOk value then setKey body1 (field ++ "ESExact") value else body1
  else body

/-- The projected body built by `getBulkIndexCommandsForDoc`
(`src/index.js` lines 48-72): the field loop over an initially empty object,
followed by `delete body._id`. -/
def projectBody (fields : List String) (doc : List (String × JValue)) :
    List (String × JValue) :=
  delKey (fields.foldl (projectField doc) []) "_id"

/-- The collision error thrown by `getLocaleIndex` (`src/index.js` line 108),
with the new locale first and the previously seen locale second. -/
def collisionMsg (l1 l2 : String) : String :=
  "apostrophe-elasticsearch: the locale names " ++ l1 ++ " and " ++ l2 ++
    " cannot be distinguished purely by their lowercased letters. elasticsearch allows no other characters in index names."

/-- Lookup in the `self.indexNamesSeen` table (a JavaScript object mapping
index names to locale strings). -/
def getSeen (seen : List (String × String)) (k : String) : Option String :=
  match seen with
  | [] => none
  | (k', v) :: rest => if k' = k then some v else getSeen rest k

/-- Write to the `self.indexNamesSeen` table. -/
def setSeen (seen : List (String × String)) (k : String) (v : String) :
    List (String × String) :=
  match seen with
  | [] => [(k, v)]
  | (k', v') :: rest => if k' = k then (k, v) :: rest else (k', v') :: setSeen rest k v

/-- `self.getLocaleIndex` (`src/index.js` lines 104-112): lowercase the
locale, derive `self.docIndex + locale.replace(/[^a-z]/g, '')`, throw when
the table holds a truthy entry for that name that differs from the
(lowercased) locale, and record the locale under the name.  The mutable
`self.indexNamesSeen` table is threaded explicitly. -/
def getLocaleIndex (docIndex : String) (seen : List (String × String))
    (locale : String) : Except String (String × List (String × String)) :=
  let locale1 := jsToLower locale
  let indexName := docIndex ++ stripNonLower locale1
  match getSeen seen indexName with
  | some prev =>
    if prev ≠ "" ∧ prev ≠ locale1 then .error (collisionMsg locale1 prev)
    else .ok (indexName, setSeen seen indexName locale1)
  | none => .ok (indexName, setSeen seen indexName locale1)

/-- The `index` action descriptor pushed by `getBulkIndexCommandsForDoc`
(`src/index.js` lines 74-80 and 90-96). -/
structure ActionDescriptor where
  indexName : String
  typeName : String
  docId : JValue

/-- One element of the flat `commands` array handed to `self.client.bulk`:
either an action descriptor or a document body. -/
inductive BulkEntry where
  | action (a : ActionDescriptor)
  | doc (b : List (String × JValue))

/-- The `_.each(locales, ...)` fan-out loop of `getBulkIndexCommandsForDoc`
(`src/index.js` lines 89-98): for each locale push one action descriptor
(resolved through `getLocaleIndex`, whose table is threaded and whose throw
aborts the whole call) and one copy of the shared body. -/
def fanOut (docIndex : String) (seen : List (String × String))
    (locales : List String) (body : List (String × JValue)) (docId : JValue) :
    Except String (List BulkEntry × List (String × String)) :=
  match locales with
  | [] => .ok ([], seen)
  | loc :: rest =>
    match getLocaleIndex docIndex seen loc with
    | .error e => .error e
    | .ok (name, seen1) =>
      match fanOut docIndex seen1 rest body docId with
      | .error e => .error e
      | .ok (cmds, seen2) =>
        .ok (.action ⟨name, "aposDoc", docId⟩ :: .doc body :: cmds, seen2)

/-- `self.getBulkIndexCommandsForDoc` (`src/index.js` lines 47-101):
build the projected body, then — when `doc.workflowLocale` is truthy —
target only that locale, otherwise fan out over the known workflow locales
(`_.keys(workflow.locales)`, modelled as `workflowLocales = some ls`) or
the single locale `default` when no workflow module is present (`none`).
A truthy non-string `workflowLocale` makes `locale.toLowerCase()` throw a
`TypeError` in JavaScript. -/
def getBulkIndexCommandsForDoc (fields : List String) (docIndex : String)
    (workflowLocales : Option (List String)) (seen : List (String × String))
    (doc : List (String × JValue)) :
    Except String (List BulkEntry × List (String × String)) :=
  let body := projectBody fields doc
  let wl := getKey doc "workflowLocale"
  if isTruthy wl then
    match wl with
    | .jstr s =>
      match getLocaleIndex docIndex seen s with
      | .error e => .error e
      | .ok (name, seen1) =>
        .ok ([.action ⟨name, "aposDoc", getKey doc "_id"⟩, .doc body], seen1)
    | _ => .error "TypeError: locale.toLowerCase is not a function"
  else
    fanOut docIndex seen
      (match workflowLocales with
       | some ls => ls
       | none => ["default"])
      body (getKey doc "_id")

/-! ### The Index stage (`self.index`, `src/index.js` lines 209-258)

The document store is modelled as the list of document identifiers in
ascending order (the collection as seen through `.sort({ _id: 1 })`). -/

/-- Lexicographic strict order on character lists: the order in which the
document store sorts and compares string identifiers. -/
def charListLt : List Char → List Char → Bool
  | [], [] => false
  | [], _ :: _ => true
  | _ :: _, [] => false
  | a :: as, b :: bs =>
    if a < b then true else if b < a then false else charListLt as bs

/-- The store's strict order on document identifiers. -/
def idLt (a b : String) : Bool :=
  charListLt a.data b.data

/-- One paged fetch,
`db.find({ _id: { $gt: last } }).sort({ _id: 1 }).limit(batchSize)`:
identifiers strictly greater than `last`, in ascending order, capped at
`batchSize`. -/
def fetchPage (store : List String) (last : String) (batchSize : Nat) :
    List String :=
  (store.filter (fun id => idLt last id)).take batchSize

/-- The recursive `nextBatch` loop (`src/index.js` lines 225-244), returning
the list of fetched pages in order: fetch a page; an empty page terminates
successfully, otherwise set `last` to the last identifier of the page and
recurse.  The `fuel` argument bounds the recursion so the model is total;
`none` means the fuel ran out. -/
def nextBatch (store : List String) (batchSize : Nat) :
    Nat → String → Option (List (List String))
  | 0, _ => none
  | fuel + 1, last =>
    let docs := fetchPage store last batchSize
    if docs.isEmpty then some [docs]
    else
      match nextBatch store batchSize fuel (docs.getLastD "") with
      | some pages => some (docs :: pages)
      | none => none

/-! ### The reindex task (`self.reindexTask`, `src/index.js` lines 117-127) -/

/-- The four stages passed to `async.series` by `reindexTask`, in source
order: `self.dropIndexes`, `self.createIndexes`, `self.index`, `self.refresh`. -/
inductive Stage where
  | dropIndexes
  | createIndexes
  | indexAll
  | refresh

/-- Observable events of one `reindexTask` run. -/
inductive Event where
  | lockAcquire (name : String)
  | lockRelease (name : String)
  | stageRun (s : Stage)

/-- `async.series`: run the callbacks in order, each gating the next; the
first failure stops the sequence and becomes the overall error.  A stage's
outcome is `none` (success) or `some err`. -/
def asyncSeries (outcome : Stage → Option String) :
    List Stage → List Event × Option String
  | [] => ([], none)
  | s :: rest =>
    match outcome s with
    | some e => ([.stageRun s], some e)
    | none =>
      let (tr, r) := asyncSeries outcome rest
      (.stageRun s :: tr, r)

/-- Modelled from the spec: `self.apos.locks.withLock(name, fn)` is an
external collaborator missing from `src/`; per spec sections 4.5 and 6 it
runs `fn` only while holding the named lock and releases the lock
unconditionally afterward, on every exit path including failure. -/
def withLock (name : String) (fn : List Event × Option String) :
    List Event × Option String :=
  (.lockAcquire name :: fn.1 ++ [.lockRelease name], fn.2)

/-- The stage list of `reindexTask` in source order. -/
def reindexStages : List Stage :=
  [.dropIndexes, .createIndexes, .indexAll, .refresh]

/-- `self.reindexTask` (`src/index.js` lines 117-127): run the four stages
through `async.series` while holding the lock
`'apostrophe-elasticsearch-reindex'`. -/
def reindexTask (outcome : Stage → Option String) :
    List Event × Option String :=
  withLock "apostrophe-elasticsearch-reindex" (asyncSeries outcome reindexStages)

/-- The stages that actually run under `async.series`: every stage up to and
including the first failing one. -/
def ranStages (outcome : Stage → Option String) : List Stage → List Stage
  | [] => []
  | s :: rest =>
    match outcome s with
    | some _ => [s]
    | none => s :: ranStages outcome rest

/-! ### Locale settings (`self.getLocaleSettings`, `src/index.js` lines 186-206) -/

/-- Whether a value is JavaScript `undefined`. -/
def isUndefined (v : JValue) : Bool :=
  match v with
  | .jsUndefined => true
  | _ => false

mutual

/-- `_.merge(dst, src)` of lodash: plain objects merge key-by-key
recursively, arrays merge index-by-index recursively, a source value of
`undefined` is skipped (the destination survives), and any other source
value overwrites the destination. -/
def lmerge (dst src : JValue) : JValue :=
  match dst, src with
  | .jobj o, .jobj s => .jobj (lmergePairs o s)
  | .jarr a, .jarr b => .jarr (lmergeLists a b)
  | d, .jsUndefined => d
  | _, s => s

/-- Merge the source object's bindings into the destination object, in
source order; `undefined` bindings are skipped. -/
def lmergePairs (o : List (String × JValue)) :
    List (String × JValue) → List (String × JValue)
  | [] => o
  | (k, v) :: rest =>
    if isUndefined v then lmergePairs o rest
    else lmergePairs (setKey o k (lmerge (getKey o k) v)) rest

/-- Merge two arrays index-by-index; a source element of `undefined` keeps
the destination element, and a longer side contributes its tail. -/
def lmergeLists : List JValue → List JValue → List JValue
  | a, [] => a
  | [], b => b
  | a0 :: arest, b0 :: brest =>
    if isUndefined b0 then a0 :: lmergeLists arest brest
    else lmerge a0 b0 :: lmergeLists arest brest

end

/-- `locale.replace` with the regular expression `-draft` anchored at the
end of the string: strip one trailing `-draft` suffix. -/
def stripDraftSuffix (locale : String) : String :=
  if ['-', 'd', 'r', 'a', 'f', 't'].isSuffixOf locale.data then
    String.mk (locale.data.take (locale.data.length - 6))
  else locale

/-- `x || {}` on an option value: the value when truthy, else an empty object. -/
def truthyOrEmpty (v : JValue) : JValue :=
  if isTruthy v then v else .jobj []

/-- JavaScript property read `v[k]` on an arbitrary value: a real lookup on
objects, `undefined` otherwise. -/
def jGet (v : JValue) (k : String) : JValue :=
  match v with
  | .jobj kvs => getKey kvs k
  | _ => .jsUndefined

/-- `self.getLocaleSettings` (`src/index.js` lines 186-206): strip a
trailing `-draft` from the locale, then `_.merge` into an initially empty
object, in order: `self.options.indexSettings || {}`; when
`self.options.analyzer` is truthy, `\x7b analysis: \x7b analyzer: it \x7d \x7d`;
`(self.options.localeIndexSettings || {})[locale] || {}`; and when
`self.options.analyzers && self.options.analyzers[locale]` is truthy,
`\x7b analysis: \x7b analyzer: it \x7d \x7d`.  `options` is the module's
`self.options` object. -/
def getLocaleSettings (options : List (String × JValue)) (locale : String) :
    JValue :=
  let locale1 := stripDraftSuffix locale
  let s0 : JValue := .jobj []
  let s1 := lmerge s0 (truthyOrEmpty (getKey options "indexSettings"))
  let s2 :=
    if isTruthy (getKey options "analyzer") then
      lmerge s1 (.jobj [("analysis", .jobj [("analyzer", getKey options "analyzer")])])
    else s1
  let s3 :=
    lmerge s2 (truthyOrEmpty (jGet (truthyOrEmpty (getKey options "localeIndexSettings")) locale1))
  let s4 :=
    if isTruthy (getKey options "analyzers") ∧
        isTruthy (jGet (getKey options "analyzers") locale1) then
      lmerge s3 (.jobj [("analysis", .jobj [("analyzer", jGet (getKey options "analyzers") locale1)])])
    else s3
  s4

/-- Whether a value is a plain object. -/
def isJObj (v : JValue) : Bool :=
  match v with
  | .jobj _ => true
  | _ => false

/-- Whether a value is an array. -/
def isJArr (v : JValue) : Bool :=
  match v with
  | .jarr _ => true
  | _ => false

/-- Layer (a) of the settings composition: the global index settings,
`self.options.indexSettings || \x7b\x7d`. -/
def layerA (options : List (String × JValue)) : JValue :=
  truthyOrEmpty (getKey options "indexSettings")

/-- Layer (b): the global analyzer override, wrapped under
`analysis.analyzer`, or an empty object when no `analyzer` option is set. -/
def layerB (options : List (String × JValue)) : JValue :=
  if isTruthy (getKey options "analyzer") then
    .jobj [("analysis", .jobj [("analyzer", getKey options "analyzer")])]
  else .jobj []

/-- Layer (c): the per-locale settings, keyed by the locale with any
trailing `-draft` suffix stripped. -/
def layerC (options : List (String × JValue)) (locale : String) : JValue :=
  truthyOrEmpty
    (jGet (truthyOrEmpty (getKey options "localeIndexSettings")) (stripDraftSuffix locale))

/-- Layer (d): the per-locale analyzer override, keyed by the stripped
locale, wrapped under `analysis.analyzer`, or an empty object. -/
def layerD (options : List (String × JValue)) (locale : String) : JValue :=
  if isTruthy (getKey options "analyzers") ∧
      isTruthy (jGet (getKey options "analyzers") (stripDraftSuffix locale)) then
    .jobj [("analysis", .jobj [("analyzer", jGet (getKey options "analyzers") (stripDraftSuffix locale))])]
  else .jobj []

/-- Substring test over the underlying character lists (used to state that
an error message does not mention an index name). -/
def strHasSub (hay pat : String) : Bool :=
  hay.data.tails.any (fun t => pat.data.isPrefixOf t)

/-- The sort order the store keeps its identifiers in. -/
abbrev IdSorted (l : List String) : Prop :=
  List.Pairwise (fun a b => idLt a b = true) l

/-- One `(action-descriptor, body)` pair per descriptor, flattened the way
`getBulkIndexCommandsForDoc` pushes them. -/
def interleaved (body : List (String × JValue)) :
    List ActionDescriptor → List BulkEntry
  | [] => []
  | d :: rest => .action d :: .doc body :: interleaved body rest

/-- The document of the spec's end-to-end scenario. -/
def scenarioDoc : List (String × JValue) :=
  [("_id", .jstr "x"), ("title", .jstr "Hello World"), ("workflowLocale", .jstr "en")]

/-- A concrete stage-outcome assignment in which the create stage fails. -/
def outcomeCreateFails : Stage → Option String :=
  fun s =>
    match s with
    | .createIndexes => some "boom"
    | _ => none

/-- A concrete options object exercising all four settings layers. -/
def optionsW : List (String × JValue) :=
  [("indexSettings", .jobj [("number_of_shards", .jnum 3)]),
   ("analyzer", .jstr "glob"),
   ("localeIndexSettings", .jobj [("en", .jobj [("number_of_shards", .jnum 5)])]),
   ("analyzers", .jobj [("en", .jstr "english")])]

/-! ## Helper lemmas -/

theorem getEntry_setKey_self (o : List (String × JValue)) (k : String) (v : JValue) :
    getEntry (setKey o k v) k = some v := by
  induction o with
  | nil => simp [setKey, getEntry]
  | cons kv rest ih =>
    obtain ⟨k', v'⟩ := kv
    by_cases h : k' = k
    · simp [setKey, getEntry, h]
    · simp [setKey, getEntry, h, ih]

theorem getEntry_setKey_other (o : List (String × JValue)) (k1 k : String)
    (v : JValue) (h : k1 ≠ k) : getEntry (setKey o k1 v) k = getEntry o k := by
  induction o with
  | nil => simp [setKey, getEntry, h]
  | cons kv rest ih =>
    obtain ⟨k', v'⟩ := kv
    by_cases h' : k' = k1
    · subst h'
      simp [setKey, getEntry, h]
    · simp [setKey, getEntry, h']
      by_cases h'' : k' = k
      · simp [h'']
      · simp [h'', ih]

theorem getEntry_delKey_self (o : List (String × JValue)) (k : String) :
    getEntry (delKey o k) k = none := by
  induction o with
  | nil => simp [delKey, getEntry]
  | cons kv rest ih =>
    obtain ⟨k', v'⟩ := kv
    by_cases h : k' = k
    · simp [delKey, h, ih]
    · simp [delKey, getEntry, h, ih]

theorem getEntry_delKey_other (o : List (String × JValue)) (k1 k : String)
    (h : k1 ≠ k) : getEntry (delKey o k1) k = getEntry o k := by
  induction o with
  | nil => simp [delKey]
  | cons kv rest ih =>
    obtain ⟨k', v'⟩ := kv
    by_cases h' : k' = k1
    · subst h'
      simp [delKey, getEntry, h, ih]
    · simp [delKey, getEntry, h', ih]

theorem hasKeyE_eq_isSome (o : List (String × JValue)) (k : String) :
    hasKeyE o k = (getEntry o k).isSome := by
  induction o with
  | nil => simp [hasKeyE, getEntry]
  | cons kv rest ih =>
    obtain ⟨k', v'⟩ := kv
    by_cases h : k' = k
    · simp [hasKeyE, getEntry, h]
    · simp [hasKeyE, getEntry, h, ih]

theorem getKey_eq_getEntry (o : List (String × JValue)) (k : String) :
    getKey o k = (getEntry o k).getD .jsUndefined := by
  induction o with
  | nil => simp [getKey, getEntry]
  | cons kv rest ih =>
    obtain ⟨k', v'⟩ := kv
    by_cases h : k' = k
    · simp [getKey, getEntry, h]
    · simp [getKey, getEntry, h, ih]

theorem length_esExact (f : String) : (f ++ "ESExact").length = f.length + 7 := by
  rw [String.length_append]
  have h7 : ("ESExact" : String).length = 7 := rfl
  omega

theorem esExact_ne_self (f : String) : f ++ "ESExact" ≠ f := by
  intro h
  have h2 := congrArg String.length h
  rw [length_esExact] at h2
  omega

theorem esExact_inj (f g : String) (h : f ++ "ESExact" = g ++ "ESExact") : f = g := by
  have h2 := congrArg String.data h
  rw [String.data_append, String.data_append] at h2
  exact String.ext (List.append_cancel_right h2)

theorem esExact_ne_id (f : String) : f ++ "ESExact" ≠ "_id" := by
  intro h
  have h2 := congrArg String.length h
  rw [length_esExact] at h2
  have h3 : ("_id" : String).length = 3 := rfl
  omega

/-- The entry the `_.each` body leaves under the field's own key. -/
theorem projectField_entry_self (doc body : List (String × JValue)) (f : String) :
    getEntry (projectField doc body f) f =
      if isGoodValue (getKey doc f) = true then some (getKey doc f)
      else getEntry body f := by
  simp only [projectField]
  by_cases hg : isGoodValue (getKey doc f) = true
  · by_cases hs : shadowOk (getKey doc f) = true
    · rw [if_pos hg, if_pos hs, getEntry_setKey_other _ _ _ _ (esExact_ne_self f),
        getEntry_setKey_self, if_pos hg]
    · rw [if_pos hg, if_neg hs, getEntry_setKey_self, if_pos hg]
  · rw [if_neg hg, if_neg hg]

/-- The entry the `_.each` body leaves under the field's shadow key. -/
theorem projectField_entry_shadow (doc body : List (String × JValue)) (f : String) :
    getEntry (projectField doc body f) (f ++ "ESExact") =
      if isGoodValue (getKey doc f) = true ∧ shadowOk (getKey doc f) = true
      then some (getKey doc f)
      else getEntry body (f ++ "ESExact") := by
  simp only [projectField]
  by_cases hg : isGoodValue (getKey doc f) = true
  · by_cases hs : shadowOk (getKey doc f) = true
    · rw [if_pos hg, if_pos hs, getEntry_setKey_self, if_pos ⟨hg, hs⟩]
    · rw [if_pos hg, if_neg hs, if_neg (fun hc => hs hc.2),
        getEntry_setKey_other _ _ _ _ (fun h => (esExact_ne_self f) h.symm)]
  · rw [if_neg hg, if_neg (fun hc => hg hc.1)]

/-- A field's loop iteration touches no key other than the field and its
shadow key. -/
theorem projectField_entry_other (doc body : List (String × JValue)) (g k : String)
    (h1 : k ≠ g) (h2 : k ≠ g ++ "ESExact") :
    getEntry (projectField doc body g) k = getEntry body k := by
  simp only [projectField]
  by_cases hg : isGoodValue (getKey doc g) = true
  · by_cases hs : shadowOk (getKey doc g) = true
    · rw [if_pos hg, if_pos hs, getEntry_setKey_other _ _ _ _ (fun h => h2 h.symm),
        getEntry_setKey_other _ _ _ _ (fun h => h1 h.symm)]
    · rw [if_pos hg, if_neg hs, getEntry_setKey_other _ _ _ _ (fun h => h1 h.symm)]
  · rw [if_neg hg]

/-- Across the whole field loop, the shadow key of `f` is written exactly by
the iterations for `f` itself, provided no configured field is literally
named like that shadow key. -/
theorem foldl_entry_shadow (doc : List (String × JValue)) (f : String)
    (fields : List String) (body0 : List (String × JValue))
    (h : ∀ g ∈ fields, g ≠ f ++ "ESExact") :
    getEntry (fields.foldl (projectField doc) body0) (f ++ "ESExact") =
      if f ∈ fields ∧ isGoodValue (getKey doc f) = true ∧ shadowOk (getKey doc f) = true
      then some (getKey doc f)
      else getEntry body0 (f ++ "ESExact") := by
  induction fields generalizing body0 with
  | nil => simp
  | cons g rest ih =>
    have hrest : ∀ g' ∈ rest, g' ≠ f ++ "ESExact" := fun g' hg' => h g' (List.mem_cons_of_mem _ hg')
    rw [List.foldl_cons, ih _ hrest]
    by_cases hgf : g = f
    · subst hgf
      rw [projectField_entry_shadow]
      by_cases hc : isGoodValue (getKey doc g) = true ∧ shadowOk (getKey doc g) = true
      · simp [hc]
      · simp [hc, List.mem_cons]
    · rw [projectField_entry_other _ _ _ _ (fun hk => h g (List.mem_cons_self g rest) hk.symm)
          (fun hk => hgf (esExact_inj f g hk).symm)]
      have hne : f ≠ g := fun h' => hgf h'.symm
      simp [List.mem_cons, hne]

/-- Across the whole field loop, the key `f` is written exactly by the
iterations for `f` itself, provided `f` is not the shadow-key name of
another configured field. -/
theorem foldl_entry_direct (doc : List (String × JValue)) (f : String)
    (fields : List String) (body0 : List (String × JValue))
    (h : ∀ g ∈ fields, f ≠ g ++ "ESExact") :
    getEntry (fields.foldl (projectField doc) body0) f =
      if f ∈ fields ∧ isGoodValue (getKey doc f) = true
      then some (getKey doc f)
      else getEntry body0 f := by
  induction fields generalizing body0 with
  | nil => simp
  | cons g rest ih =>
    have hrest : ∀ g' ∈ rest, f ≠ g' ++ "ESExact" := fun g' hg' => h g' (List.mem_cons_of_mem _ hg')
    rw [List.foldl_cons, ih _ hrest]
    by_cases hgf : g = f
    · subst hgf
      rw [projectField_entry_self]
      by_cases hc : isGoodValue (getKey doc g) = true
      · simp [hc]
      · simp [hc, List.mem_cons]
    · rw [projectField_entry_other _ _ _ _ (fun hk => hgf hk.symm)
          (h g (List.mem_cons_self g rest))]
      have hne : f ≠ g := fun h' => hgf h'.symm
      simp [List.mem_cons, hne]

/-- Entry of the projected body under a shadow key. -/
theorem projectBody_entry_shadow (fields : List String)
    (doc : List (String × JValue)) (f : String)
    (h : ∀ g ∈ fields, g ≠ f ++ "ESExact") :
    getEntry (projectBody fields doc) (f ++ "ESExact") =
      if f ∈ fields ∧ isGoodValue (getKey doc f) = true ∧ shadowOk (getKey doc f) = true
      then some (getKey doc f)
      else none := by
  unfold projectBody
  rw [getEntry_delKey_other _ _ _ (fun hk => esExact_ne_id f hk.symm),
    foldl_entry_shadow doc f fields [] h]
  simp [getEntry]

/-- Entry of the projected body under a field's own key (for a field other
than `_id`). -/
theorem projectBody_entry_direct (fields : List String)
    (doc : List (String × JValue)) (f : String) (hid : f ≠ "_id")
    (h : ∀ g ∈ fields, f ≠ g ++ "ESExact") :
    getEntry (projectBody fields doc) f =
      if f ∈ fields ∧ isGoodValue (getKey doc f) = true
      then some (getKey doc f)
      else none := by
  unfold projectBody
  rw [getEntry_delKey_other _ _ _ (fun hk => hid hk.symm),
    foldl_entry_direct doc f fields [] h]
  simp [getEntry]

/-- `delete body._id` makes the `_id` key absent from every projected body. -/
theorem projectBody_id_none (fields : List String) (doc : List (String × JValue)) :
    getEntry (projectBody fields doc) "_id" = none := by
  unfold projectBody
  exact getEntry_delKey_self _ _

theorem charListLt_irrefl (l : List Char) : charListLt l l = false := by
  induction l with
  | nil => rfl
  | cons a as ih => simp [charListLt, lt_irrefl, ih]

theorem charListLt_trans (a : List Char) : ∀ b c, charListLt a b = true →
    charListLt b c = true → charListLt a c = true := by
  induction a with
  | nil =>
    intro b c hab hbc
    cases b with
    | nil => simp [charListLt] at hab
    | cons b0 bs =>
      cases c with
      | nil => simp [charListLt] at hbc
      | cons c0 cs => simp [charListLt]
  | cons a0 as ih =>
    intro b c hab hbc
    cases b with
    | nil => simp [charListLt] at hab
    | cons b0 bs =>
      cases c with
      | nil => simp [charListLt] at hbc
      | cons c0 cs =>
        simp only [charListLt] at hab hbc ⊢
        by_cases h1 : a0 < b0
        · by_cases h2 : b0 < c0
          · rw [if_pos (lt_trans h1 h2)]
          · rw [if_neg h2] at hbc
            by_cases h3 : c0 < b0
            · rw [if_pos h3] at hbc; cases hbc
            · have hbe : b0 = c0 := le_antisymm (not_lt.mp h3) (not_lt.mp h2)
              subst hbe
              rw [if_pos h1]
        · rw [if_neg h1] at hab
          by_cases h1' : b0 < a0
          · rw [if_pos h1'] at hab; cases hab
          · rw [if_neg h1'] at hab
            have hae : a0 = b0 := le_antisymm (not_lt.mp h1') (not_lt.mp h1)
            subst hae
            by_cases h2 : a0 < c0
            · rw [if_pos h2]
            · rw [if_neg h2] at hbc ⊢
              by_cases h3 : c0 < a0
              · rw [if_pos h3] at hbc; cases hbc
              · rw [if_neg h3] at hbc ⊢
                exact ih bs cs hab hbc

theorem charListLt_asymm (a : List Char) : ∀ b, charListLt a b = true →
    charListLt b a = true → False := by
  induction a with
  | nil =>
    intro b hab hba
    cases b with
    | nil => simp [charListLt] at hab
    | cons b0 bs => simp [charListLt] at hba
  | cons a0 as ih =>
    intro b hab hba
    cases b with
    | nil => simp [charListLt] at hab
    | cons b0 bs =>
      simp only [charListLt] at hab hba
      by_cases h1 : a0 < b0
      · rw [if_neg (lt_asymm h1), if_pos h1] at hba; cases hba
      · by_cases h2 : b0 < a0
        · rw [if_neg h1, if_pos h2] at hab; cases hab
        · rw [if_neg h1, if_neg h2] at hab
          rw [if_neg h2, if_neg h1] at hba
          exact ih bs hab hba

theorem idLt_trans (a b c : String) (hab : idLt a b = true) (hbc : idLt b c = true) :
    idLt a c = true :=
  charListLt_trans a.data b.data c.data hab hbc

theorem idLt_irrefl (a : String) : idLt a a = false :=
  charListLt_irrefl a.data

theorem idLt_asymm (a b : String) (hab : idLt a b = true) (hba : idLt b a = true) :
    False :=
  charListLt_asymm a.data b.data hab hba

theorem idSorted_getLastD_not_lt (t : List String) (h : IdSorted t) (hne : t ≠ []) :
    ∀ x ∈ t, idLt (t.getLastD "") x = false := by
  intro x hx
  have hld : t.getLastD "" = t.getLast hne := by
    rw [List.getLastD_eq_getLast? .., List.getLast?_eq_getLast t hne]
    rfl
  rw [hld]
  have hsplit : t.dropLast ++ [t.getLast hne] = t := List.dropLast_append_getLast hne
  rw [← hsplit] at hx
  rcases List.mem_append.mp hx with hx1 | hx2
  · have hp : List.Pairwise (fun a b => idLt a b = true) (t.dropLast ++ [t.getLast hne]) := by
      rw [hsplit]; exact h
    have hlt := (List.pairwise_append.mp hp).2.2 x hx1 (t.getLast hne)
      (List.mem_singleton_self _)
    cases hc : idLt (t.getLast hne) x with
    | false => rfl
    | true => exact (idLt_asymm _ _ hlt hc).elim
  · rw [List.mem_singleton.mp hx2]
    exact idLt_irrefl _

theorem idSorted_getLastD_lt_drop (l : List String) (B : Nat) (h : IdSorted l)
    (hne : l.take B ≠ []) :
    ∀ x ∈ l.drop B, idLt ((l.take B).getLastD "") x = true := by
  intro x hx
  have hp : List.Pairwise (fun a b => idLt a b = true) (l.take B ++ l.drop B) := by
    rw [List.take_append_drop]; exact h
  have hlast : (l.take B).getLastD "" ∈ l.take B := by
    have hld : (l.take B).getLastD "" = (l.take B).getLast hne := by
      rw [List.getLastD_eq_getLast? .., List.getLast?_eq_getLast _ hne]
      rfl
    rw [hld]
    exact List.getLast_mem hne
  exact (List.pairwise_append.mp hp).2.2 _ hlast x hx

/-- After a page, filtering the sorted remainder by "greater than the page's
last identifier" yields exactly the part after the page. -/
theorem filter_gt_getLastD (l : List String) (B : Nat) (h : IdSorted l)
    (hne : l.take B ≠ []) :
    l.filter (fun id => idLt ((l.take B).getLastD "") id) = l.drop B := by
  set p : String → Bool := fun id => idLt ((l.take B).getLastD "") id with hp
  have h1 : (l.take B).filter p = [] := by
    refine List.filter_eq_nil_iff.mpr (fun x hx => ?_)
    have hfls := idSorted_getLastD_not_lt (l.take B)
      (h.sublist (List.take_sublist B l)) hne x hx
    simp only [hp, hfls]
    exact Bool.false_ne_true
  have h2 : (l.drop B).filter p = l.drop B := by
    refine List.filter_eq_self.mpr (fun x hx => ?_)
    simp only [hp]
    exact idSorted_getLastD_lt_drop l B h hne x hx
  conv_lhs => rw [← List.take_append_drop B l]
  rw [List.filter_append, h1, h2, List.nil_append]

theorem getLast?_cons_of_ne_nil {α : Type} (a : α) (l : List α) (h : l ≠ []) :
    (a :: l).getLast? = l.getLast? := by
  cases l with
  | nil => exact absurd rfl h
  | cons b t => exact List.getLast?_cons_cons

/-- The ceiling-division step used to count pages. -/
theorem ceil_div_step (r B : Nat) (hr : 0 < r) (hB : 0 < B) :
    (r + B - 1) / B = (r - B + B - 1) / B + 1 := by
  by_cases hle : r ≤ B
  · have h1 : r - B = 0 := by omega
    rw [h1]
    have h2 : (B - 1) / B = 0 := Nat.div_eq_of_lt (by omega)
    rw [Nat.zero_add, h2]
    exact Nat.div_eq_of_lt_le (by omega) (by omega)
  · have h3 : r + B - 1 = (r - B + B - 1) + B := by omega
    rw [h3, Nat.add_div_right _ hB]

/-- Behaviour of the `nextBatch` recursion on a sorted store, for any value
of the `last` cursor: it succeeds given enough fuel, fetches every remaining
document exactly once in order, ends with the empty page that terminates it,
and issues `ceil(remaining / batchSize) + 1` fetches in total. -/
theorem nextBatch_spec (fuel : Nat) : ∀ (store : List String) (B : Nat) (last : String),
    IdSorted store → 0 < B →
    (store.filter (fun id => idLt last id)).length < fuel →
    ∃ pages, nextBatch store B fuel last = some pages ∧
      pages.length = ((store.filter (fun id => idLt last id)).length + B - 1) / B + 1 ∧
      pages.getLast? = some [] ∧
      pages.flatten = store.filter (fun id => idLt last id) := by
  induction fuel with
  | zero => intro store B last _ _ hlen; omega
  | succ n ih =>
    intro store B last hsort hB hlen
    by_cases hrem : store.filter (fun id => idLt last id) = []
    · refine ⟨[[]], ?_, ?_, rfl, by simp [hrem]⟩
      · simp [nextBatch, fetchPage, hrem]
      · rw [hrem]
        simp [Nat.div_eq_of_lt (show B - 1 < B by omega)]
    · have hne : (store.filter (fun id => idLt last id)).take B ≠ [] := by
        rw [Ne, List.take_eq_nil_iff]
        push_neg
        exact ⟨by omega, hrem⟩
      set rem := store.filter (fun id => idLt last id) with hremEq
      set newlast := (rem.take B).getLastD "" with hnewlast
      have hsortrem : IdSorted rem := hsort.sublist (List.filter_sublist store)
      have hmemnew : newlast ∈ rem := by
        have : newlast ∈ rem.take B := by
          rw [hnewlast]
          have hld : (rem.take B).getLastD "" = (rem.take B).getLast hne := by
            rw [List.getLastD_eq_getLast? .., List.getLast?_eq_getLast _ hne]
            rfl
          rw [hld]
          exact List.getLast_mem hne
        exact (List.take_sublist B rem).mem this
      have hlastnew : idLt last newlast = true := List.of_mem_filter hmemnew
      have hfilter2 : store.filter (fun id => idLt newlast id) = rem.drop B := by
        have hstep1 : store.filter (fun id => idLt newlast id) =
            store.filter (fun id => idLt newlast id && idLt last id) := by
          refine (List.filter_congr (fun x _ => ?_)).symm
          cases hc : idLt newlast x with
          | false => rfl
          | true => simp [idLt_trans last newlast x hlastnew hc]
        rw [hstep1, ← List.filter_filter]
        exact filter_gt_getLastD rem B hsortrem hne
      have hdroplen : (store.filter (fun id => idLt newlast id)).length < n := by
        rw [hfilter2, List.length_drop]
        have h1 : 1 ≤ rem.length := by
          cases hre : rem with
          | nil => exact absurd hre hrem
          | cons a t => simp
        omega
      obtain ⟨pages1, hrun, hlen1, hlast1, hflat1⟩ :=
        ih store B newlast hsort hB hdroplen
      have hpagesne : pages1 ≠ [] := by
        intro hcon
        rw [hcon] at hlast1
        cases hlast1
      refine ⟨rem.take B :: pages1, ?_, ?_, ?_, ?_⟩
      · show nextBatch store B (n + 1) last = _
        rw [nextBatch]
        have hfetch : fetchPage store last B = rem.take B := rfl
        rw [hfetch]
        have hnotempty : (rem.take B).isEmpty = false := by
          cases hc : (rem.take B).isEmpty with
          | false => rfl
          | true => exact absurd (List.isEmpty_iff.mp hc) hne
        rw [if_neg (by simp [hnotempty]), ← hnewlast, hrun]
      · have hlen2 : rem.length ≤ B * rem.length := Nat.le_mul_of_pos_left _ hB
        have h1 : 1 ≤ rem.length := by
          cases hre : rem with
          | nil => exact absurd hre hrem
          | cons a t => simp
        rw [List.length_cons, hlen1, hfilter2, List.length_drop]
        rw [ceil_div_step rem.length B h1 hB]
      · rw [getLast?_cons_of_ne_nil _ _ hpagesne]
        exact hlast1
      · rw [List.flatten_cons, hflat1, hfilter2]
        exact List.take_append_drop B rem

theorem getLocaleIndex_ok_name (docIndex : String) (seen : List (String × String))
    (locale name : String) (seen' : List (String × String))
    (h : getLocaleIndex docIndex seen locale = .ok (name, seen')) :
    name = docIndex ++ stripNonLower (jsToLower locale) := by
  simp only [getLocaleIndex] at h
  split at h
  · split at h
    · cases h
    · simp only [Except.ok.injEq, Prod.mk.injEq] at h
      exact h.1.symm
  · simp only [Except.ok.injEq, Prod.mk.injEq] at h
    exact h.1.symm

/-- Structure of a successful fan-out: one `(action, body)` pair per locale,
in locale order, every action naming the locale-derived index, the shared
body repeated unchanged. -/
theorem fanOut_ok (docIndex : String) (body : List (String × JValue)) (docId : JValue)
    (locales : List String) :
    ∀ (seen : List (String × String)) (cmds : List BulkEntry)
      (seen' : List (String × String)),
    fanOut docIndex seen locales body docId = .ok (cmds, seen') →
    ∃ descs : List ActionDescriptor,
      cmds = interleaved body descs ∧
      descs.map (fun d => d.indexName) =
        locales.map (fun l => docIndex ++ stripNonLower (jsToLower l)) ∧
      ∀ d ∈ descs, d.typeName = "aposDoc" ∧ d.docId = docId := by
  induction locales with
  | nil =>
    intro seen cmds seen' h
    simp only [fanOut, Except.ok.injEq, Prod.mk.injEq] at h
    exact ⟨[], by rw [← h.1]; rfl, by simp, by simp⟩
  | cons loc rest ih =>
    intro seen cmds seen' h
    simp only [fanOut] at h
    split at h
    · cases h
    · next name seen1 hgl =>
      split at h
      · cases h
      · next cmds2 seen2 hfo =>
        simp only [Except.ok.injEq, Prod.mk.injEq] at h
        obtain ⟨descs, hd1, hd2, hd3⟩ := ih seen1 cmds2 seen2 hfo
        refine ⟨⟨name, "aposDoc", docId⟩ :: descs, ?_, ?_, ?_⟩
        · rw [← h.1, hd1]
          rfl
        · simp only [List.map_cons, hd2]
          rw [getLocaleIndex_ok_name _ _ _ _ _ hgl]
        · intro d hd
          rcases List.mem_cons.mp hd with hd | hd
          · rw [hd]
            exact ⟨rfl, rfl⟩
          · exact hd3 d hd

theorem getSeen_setSeen_self (seen : List (String × String)) (k v : String) :
    getSeen (setSeen seen k v) k = some v := by
  induction seen with
  | nil => simp [setSeen, getSeen]
  | cons kv rest ih =>
    obtain ⟨k', v'⟩ := kv
    by_cases h : k' = k
    · simp [setSeen, getSeen, h]
    · simp [setSeen, getSeen, h, ih]

/-- A first call from an empty `indexNamesSeen` table always succeeds and
records the lowercased locale under the derived name. -/
theorem getLocaleIndex_fresh (docIndex locale : String) :
    getLocaleIndex docIndex [] locale =
      .ok (docIndex ++ stripNonLower (jsToLower locale),
        [(docIndex ++ stripNonLower (jsToLower locale), jsToLower locale)]) := rfl

/-- Re-running `getLocaleIndex` on the locale already recorded for the
derived name succeeds (the stored locale equals the lowercased locale). -/
theorem getLocaleIndex_again (docIndex : String)
    (seen : List (String × String)) (locale : String)
    (h : getSeen seen (docIndex ++ stripNonLower (jsToLower locale)) =
      some (jsToLower locale)) :
    getLocaleIndex docIndex seen locale =
      .ok (docIndex ++ stripNonLower (jsToLower locale),
        setSeen seen (docIndex ++ stripNonLower (jsToLower locale))
          (jsToLower locale)) := by
  simp only [getLocaleIndex, h]
  rw [if_neg (fun hc => hc.2 rfl)]

theorem isUndefined_eq_false (v : JValue) (h : v ≠ .jsUndefined) : isUndefined v = false := by
  cases v <;> first
    | exact absurd rfl h
    | rfl

theorem getKey_setKey_other (o : List (String × JValue)) (k1 k : String)
    (v : JValue) (h : k1 ≠ k) : getKey (setKey o k1 v) k = getKey o k := by
  rw [getKey_eq_getEntry, getKey_eq_getEntry, getEntry_setKey_other _ _ _ _ h]

/-- `_.merge` leaves keys that the source object does not mention untouched. -/
theorem lmergePairs_untouched (s : List (String × JValue)) :
    ∀ (o : List (String × JValue)) (k : String), (∀ p ∈ s, p.1 ≠ k) →
      getEntry (lmergePairs o s) k = getEntry o k := by
  induction s with
  | nil => intro o k _; rfl
  | cons kv rest ih =>
    obtain ⟨k1, v1⟩ := kv
    intro o k h
    have hk1 : k1 ≠ k := h (k1, v1) (List.mem_cons_self _ _)
    have hrest : ∀ p ∈ rest, p.1 ≠ k := fun p hp => h p (List.mem_cons_of_mem _ hp)
    simp only [lmergePairs]
    by_cases hu : isUndefined v1 = true
    · rw [if_pos hu]
      exact ih o k hrest
    · rw [if_neg hu, ih _ k hrest, getEntry_setKey_other _ _ _ _ hk1]

/-- `_.merge` binds every key the source object mentions (with a defined
value) to the recursive merge of the two sides, assuming the source object
has no duplicate keys. -/
theorem lmergePairs_entry (s : List (String × JValue)) :
    ∀ (o : List (String × JValue)) (k : String) (v : JValue),
      (s.map Prod.fst).Nodup → getEntry s k = some v → v ≠ .jsUndefined →
      getEntry (lmergePairs o s) k = some (lmerge (getKey o k) v) := by
  induction s with
  | nil =>
    intro o k v _ he _
    simp [getEntry] at he
  | cons kv rest ih =>
    obtain ⟨k1, v1⟩ := kv
    intro o k v hnd he hne
    rw [List.map_cons] at hnd
    have hnotin := (List.nodup_cons.mp hnd).1
    have hndrest := (List.nodup_cons.mp hnd).2
    simp only [getEntry] at he
    by_cases hk : k1 = k
    · rw [if_pos hk] at he
      have hv : v1 = v := by injection he
      subst hv
      subst hk
      simp only [lmergePairs]
      rw [if_neg (by simp [isUndefined_eq_false v1 hne])]
      have hcl : ∀ p ∈ rest, p.1 ≠ k1 := by
        intro p hp heq
        refine hnotin ?_
        rw [← heq]
        exact List.mem_map.mpr ⟨p, hp, rfl⟩
      rw [lmergePairs_untouched rest _ k1 hcl, getEntry_setKey_self]
    · rw [if_neg hk] at he
      simp only [lmergePairs]
      by_cases hu : isUndefined v1 = true
      · rw [if_pos hu]
        exact ih o k v hndrest he hne
      · rw [if_neg hu, ih _ k v hndrest he hne, getKey_setKey_other o k1 k _ hk]

/-- Merging an empty source object is the identity on objects. -/
theorem lmerge_jobj_nil (o : List (String × JValue)) :
    lmerge (.jobj o) (.jobj []) = .jobj o := rfl

/-- A defined, non-object, non-array source value overwrites the
destination wholesale. -/
theorem lmerge_scalar (d v : JValue) (h1 : v ≠ .jsUndefined) (h2 : isJObj v = false)
    (h3 : isJArr v = false) : lmerge d v = v := by
  cases v with
  | jsUndefined => exact absurd rfl h1
  | jobj kvs => simp [isJObj] at h2
  | jarr xs =>
    cases d <;> simp [isJArr] at h3
  | jnull => cases d <;> rfl
  | jbool b => cases d <;> rfl
  | jnum n => cases d <;> rfl
  | jstr s => cases d <;> rfl

theorem isJObj_exists (v : JValue) (h : isJObj v = true) :
    ∃ o, v = .jobj o := by
  cases v with
  | jobj o => exact ⟨o, rfl⟩
  | jsUndefined => simp [isJObj] at h
  | jnull => simp [isJObj] at h
  | jbool b => simp [isJObj] at h
  | jnum n => simp [isJObj] at h
  | jstr s => simp [isJObj] at h
  | jarr xs => simp [isJObj] at h

/-- Merging two objects is again an object. -/
theorem lmerge_isJObj (d s : JValue) (hd : isJObj d = true) (hs : isJObj s = true) :
    isJObj (lmerge d s) = true := by
  obtain ⟨o, rfl⟩ := isJObj_exists d hd
  obtain ⟨s2, rfl⟩ := isJObj_exists s hs
  rfl

/-- The code's sequential conditional `_.merge` chain equals the
left-to-right reduction of the four settings layers, whenever the two
data-dependent layers are objects (the other two are objects by
construction). -/
theorem getLocaleSettings_layers (options : List (String × JValue)) (locale : String)
    (hA : isJObj (layerA options) = true) (hC : isJObj (layerC options locale) = true) :
    getLocaleSettings options locale =
      List.foldl lmerge (.jobj [])
        [layerA options, layerB options, layerC options locale, layerD options locale] := by
  obtain ⟨oA, hoA⟩ := isJObj_exists _ hA
  obtain ⟨oC, hoC⟩ := isJObj_exists _ hC
  simp only [layerA] at hoA
  simp only [layerC] at hoC
  simp only [List.foldl_cons, List.foldl_nil, getLocaleSettings, layerA, layerB,
    layerC, layerD]
  rw [hoA, hoC]
  by_cases h2 : isTruthy (getKey options "analyzer") = true
  · simp only [if_pos h2]
    by_cases h4 : isTruthy (getKey options "analyzers") = true ∧
        isTruthy (jGet (getKey options "analyzers") (stripDraftSuffix locale)) = true
    · simp only [if_pos h4]
    · simp only [if_neg h4]
      rfl
  · simp only [if_neg h2]
    by_cases h4 : isTruthy (getKey options "analyzers") = true ∧
        isTruthy (jGet (getKey options "analyzers") (stripDraftSuffix locale)) = true
    · simp only [if_pos h4]
      rfl
    · simp only [if_neg h4]
      rfl

/-! ## Claim theorems -/

/-- Claim C1 counterexample: in the spec's end-to-end scenario the produced
body is exactly the one shown (key `titleESExact`), which lacks the claimed
shadow key `titleExact`. -/
theorem c1_counterexample :
    getBulkIndexCommandsForDoc ["title"] (docIndexOf "test") none [] scenarioDoc =
      .ok ([.action ⟨"testaposdocsen", "aposDoc", .jstr "x"⟩,
            .doc [("title", .jstr "Hello World"), ("titleESExact", .jstr "Hello World")]],
           [("testaposdocsen", "en")]) ∧
    hasKeyE [("title", JValue.jstr "Hello World"), ("titleESExact", JValue.jstr "Hello World")]
      "titleExact" = false ∧
    hasKeyE [("title", JValue.jstr "Hello World"), ("titleESExact", JValue.jstr "Hello World")]
      "titleESExact" = true :=
  ⟨rfl, rfl, rfl⟩

/-- Claim C1 (amended): the shadow exact-match key is named `<field>ESExact`
(not `<field>Exact`); it is present exactly when the field is included and
the value is falsy (absent or empty in particular) or its JSON-serialized
length is below 4096, carrying the identical unmodified value; the spec's
end-to-end document yields exactly one bulk command targeting the
`en`-derived index whose body binds `title` and `titleESExact` to
`Hello World`. -/
theorem c1_shadow_exact (fields : List String) (doc : List (String × JValue))
    (f : String) (hsh : ∀ g ∈ fields, g ≠ f ++ "ESExact") :
    (getEntry (projectBody fields doc) (f ++ "ESExact") =
      if f ∈ fields ∧ isGoodValue (getKey doc f) = true ∧ shadowOk (getKey doc f) = true
      then some (getKey doc f) else none) ∧
    getBulkIndexCommandsForDoc ["title"] (docIndexOf "test") none [] scenarioDoc =
      .ok ([.action ⟨"testaposdocsen", "aposDoc", .jstr "x"⟩,
            .doc [("title", .jstr "Hello World"), ("titleESExact", .jstr "Hello World")]],
           [("testaposdocsen", "en")]) :=
  ⟨projectBody_entry_shadow fields doc f hsh, rfl⟩

/-- Witness for C1 at the scenario document with field set `[title]`. -/
theorem c1_witness :
    getEntry (projectBody ["title"] scenarioDoc) ("title" ++ "ESExact") =
      some (JValue.jstr "Hello World") := by
  have h := (c1_shadow_exact ["title"] scenarioDoc "title" (by decide)).1
  exact h.trans rfl

/-- Claim C2 counterexample: a `null`-valued field is dropped from the
projected body, although the claim classifies `null` as an included scalar. -/
theorem c2_counterexample :
    projectBody ["title"] [("title", JValue.jnull)] = [] ∧
    hasKeyE (projectBody ["title"] [("title", JValue.jnull)]) "title" = false :=
  ⟨rfl, rfl⟩

/-- Claim C2 (amended): a configured field other than `_id` (and not aliased
by another configured field's shadow name) appears in the projected body
exactly when its value passes the `typeof`-based flatness test: strings,
numbers, booleans and `undefined` pass, `null` fails (its `typeof` is
`'object'`), objects fail, and a nonempty array passes exactly when its
first element is not `null`, an object or an array. -/
theorem c2_flat_projection (fields : List String) (doc : List (String × JValue))
    (f : String) (hmem : f ∈ fields) (hid : f ≠ "_id")
    (hsh : ∀ g ∈ fields, f ≠ g ++ "ESExact") :
    (getEntry (projectBody fields doc) f =
      if isGoodValue (getKey doc f) = true then some (getKey doc f) else none) ∧
    (∀ s, isGoodValue (.jstr s) = true) ∧
    (∀ n, isGoodValue (.jnum n) = true) ∧
    (∀ b, isGoodValue (.jbool b) = true) ∧
    isGoodValue .jsUndefined = true ∧
    isGoodValue .jnull = false ∧
    (∀ kvs, isGoodValue (.jobj kvs) = false) ∧
    (∀ x xs, isGoodValue (.jarr (x :: xs)) = !(typeofIsObject x)) ∧
    typeofIsObject .jnull = true := by
  refine ⟨?_, fun s => rfl, fun n => rfl, fun b => rfl, rfl, rfl, fun kvs => rfl,
    fun x xs => rfl, rfl⟩
  rw [projectBody_entry_direct fields doc f hid hsh]
  by_cases hg : isGoodValue (getKey doc f) = true
  · rw [if_pos ⟨hmem, hg⟩, if_pos hg]
  · rw [if_neg (fun hc => hg hc.2), if_neg hg]

/-- Witness for C2 at field set `[title]` and a string-valued `title`. -/
theorem c2_witness :
    getEntry (projectBody ["title"] [("title", JValue.jstr "Hello")]) "title" =
      some (JValue.jstr "Hello") := by
  have h := (c2_flat_projection ["title"] [("title", JValue.jstr "Hello")] "title"
    (by decide) (by decide) (by decide)).1
  exact h.trans rfl

/-- Claim C9 counterexample: with `_id` itself configured as a field, the
emitted body still carries the identifier-derived key `_idESExact`. -/
theorem c9_counterexample :
    getBulkIndexCommandsForDoc ["_id"] (docIndexOf "test") none [] [("_id", JValue.jstr "x")] =
      .ok ([.action ⟨"testaposdocsdefault", "aposDoc", .jstr "x"⟩,
            .doc [("_idESExact", .jstr "x")]],
           [("testaposdocsdefault", "default")]) ∧
    hasKeyE [("_idESExact", JValue.jstr "x")] ("_id" ++ "ESExact") = true :=
  ⟨rfl, rfl⟩

/-- Claim C9 (amended): the identifier key `_id` itself is deleted from
every projected body (it travels only in the action descriptor), but the
deletion does not extend to its shadow key: when `_id` is a configured
field, `_idESExact` remains in the emitted body. -/
theorem c9_id_exclusion :
    (∀ (fields : List String) (doc : List (String × JValue)),
      getEntry (projectBody fields doc) "_id" = none) ∧
    getEntry (projectBody ["_id"] [("_id", JValue.jstr "x")]) "_idESExact" =
      some (JValue.jstr "x") :=
  ⟨projectBody_id_none, rfl⟩

/-- Claim C10: a configured field entirely absent from the document is still
projected — both the field key and its shadow exact-match key are present in
the body, each bound to the `undefined` value; the projection performs no
presence check (stated for documents that do carry an identifier, and field
sets without shadow-name aliasing). -/
theorem c10_absent_field_projected (fields : List String)
    (doc : List (String × JValue)) (f : String)
    (hmem : f ∈ fields)
    (habsent : getKey doc f = .jsUndefined)
    (hdocid : getKey doc "_id" ≠ .jsUndefined)
    (hsh1 : ∀ g ∈ fields, g ≠ f ++ "ESExact")
    (hsh2 : ∀ g ∈ fields, f ≠ g ++ "ESExact") :
    getEntry (projectBody fields doc) f = some .jsUndefined ∧
    getEntry (projectBody fields doc) (f ++ "ESExact") = some .jsUndefined := by
  have hfid : f ≠ "_id" := fun h => hdocid (h ▸ habsent)
  constructor
  · rw [projectBody_entry_direct fields doc f hfid hsh2,
      if_pos ⟨hmem, by rw [habsent]; rfl⟩, habsent]
  · rw [projectBody_entry_shadow fields doc f hsh1,
      if_pos ⟨hmem, by rw [habsent]; rfl, by rw [habsent]; rfl⟩, habsent]

/-- Witness for C10 with field set `[title, body]` and a document holding
only its identifier. -/
theorem c10_witness :
    getEntry (projectBody ["title", "body"] [("_id", JValue.jstr "x")]) "title" =
      some .jsUndefined ∧
    getEntry (projectBody ["title", "body"] [("_id", JValue.jstr "x")])
      ("title" ++ "ESExact") = some .jsUndefined :=
  c10_absent_field_projected ["title", "body"] [("_id", JValue.jstr "x")] "title"
    (by decide) rfl (fun h => JValue.noConfusion h) (by decide) (by decide)

/-- Claim C3 counterexample: on a store of one document with batch size one,
the loop makes two fetch calls (the page `[a]`, then the empty terminating
page), but the claim predicts exactly `ceil(1/1) = 1` calls. -/
theorem c3_counterexample :
    nextBatch ["a"] 1 2 "" = some [["a"], []] ∧
    (1 + 1 - 1) / 1 = 1 ∧
    ¬ ([["a"], []] : List (List String)).length = 1 :=
  ⟨rfl, rfl, by decide⟩

/-- Claim C3 (amended): on a store of N identifiers with batch size B ≥ 1,
the index stage issues exactly `ceil(N/B) + 1` paged fetch calls — each
requesting identifiers strictly greater than the previous page's last-seen
identifier, ascending, capped at B — the final call returns the empty page
(the successful termination condition), and the pages enumerate the store
exactly once in order. -/
theorem c3_pagination (store : List String) (B fuel : Nat)
    (hsort : IdSorted store) (hpos : ∀ id ∈ store, idLt "" id = true)
    (hB : 0 < B) (hfuel : store.length < fuel) :
    ∃ pages, nextBatch store B fuel "" = some pages ∧
      pages.length = (store.length + B - 1) / B + 1 ∧
      pages.getLast? = some [] ∧
      pages.flatten = store := by
  have hfilter : store.filter (fun id => idLt "" id) = store :=
    List.filter_eq_self.mpr hpos
  obtain ⟨pages, h1, h2, h3, h4⟩ :=
    nextBatch_spec fuel store B "" hsort hB (by rw [hfilter]; exact hfuel)
  exact ⟨pages, h1, by rw [h2, hfilter], h3, by rw [h4, hfilter]⟩

/-- Witness for C3 on the store `[a, b, c]` with batch size 2: pages
`[a, b]`, `[c]`, `[]` — that is `ceil(3/2) + 1 = 3` fetch calls. -/
theorem c3_witness :
    ∃ pages, nextBatch ["a", "b", "c"] 2 4 "" = some pages ∧
      pages.length = ((["a", "b", "c"] : List String).length + 2 - 1) / 2 + 1 ∧
      pages.getLast? = some [] ∧
      pages.flatten = ["a", "b", "c"] :=
  c3_pagination ["a", "b", "c"] 2 4 (by decide) (by decide) (by decide) (by decide)

/-- Claim C4 counterexample: the guard compares lowercased locales, so the
distinct locale strings `EN` and `en` derive the same index name yet the
second call succeeds rather than raising; and when the guard does throw (for
`a-b` then `ab`), the error message names both locales but does not contain
the colliding index name. -/
theorem c4_counterexample :
    ("EN" : String) ≠ "en" ∧
    docIndexOf "test" ++ stripNonLower (jsToLower "EN") =
      docIndexOf "test" ++ stripNonLower (jsToLower "en") ∧
    getLocaleIndex (docIndexOf "test") [] "EN" =
      .ok ("testaposdocsen", [("testaposdocsen", "en")]) ∧
    getLocaleIndex (docIndexOf "test") [("testaposdocsen", "en")] "en" =
      .ok ("testaposdocsen", [("testaposdocsen", "en")]) ∧
    getLocaleIndex (docIndexOf "test") [("testaposdocsab", "a-b")] "ab" =
      .error (collisionMsg "ab" "a-b") ∧
    strHasSub (collisionMsg "ab" "a-b") "testaposdocsab" = false :=
  ⟨by decide, rfl, rfl, rfl, rfl, by decide⟩

/-- Claim C4 (amended): the collision guard works on lowercased locales:
from a fresh table the first call always succeeds; repeating the same locale
string never raises; and when a second locale has a different (and the
stored one nonempty) lowercased form that strips to the same index name, the
second call raises synchronously with a configuration error naming both
lowercased locales — though not the colliding index name. -/
theorem c4_collision_guard (docIndex l1 l2 : String) :
    (∃ out, getLocaleIndex docIndex [] l1 = .ok out) ∧
    (getLocaleIndex docIndex
        [(docIndex ++ stripNonLower (jsToLower l1), jsToLower l1)] l1 =
      .ok (docIndex ++ stripNonLower (jsToLower l1),
        [(docIndex ++ stripNonLower (jsToLower l1), jsToLower l1)])) ∧
    (jsToLower l1 ≠ "" → jsToLower l1 ≠ jsToLower l2 →
      stripNonLower (jsToLower l1) = stripNonLower (jsToLower l2) →
      getLocaleIndex docIndex
        [(docIndex ++ stripNonLower (jsToLower l1), jsToLower l1)] l2 =
      .error (collisionMsg (jsToLower l2) (jsToLower l1))) := by
  refine ⟨⟨_, getLocaleIndex_fresh docIndex l1⟩, ?_, ?_⟩
  · simp only [getLocaleIndex]
    split
    · next prev hprev =>
      have hp : prev = jsToLower l1 := by
        simp [getSeen] at hprev
        exact hprev.symm
      subst hp
      rw [if_neg (fun hc => hc.2 rfl)]
      simp [setSeen]
    · next hprev => simp [getSeen] at hprev
  · intro h1 h2 h3
    simp only [getLocaleIndex, ← h3]
    split
    · next prev hprev =>
      have hp : prev = jsToLower l1 := by
        simp [getSeen] at hprev
        exact hprev.symm
      subst hp
      rw [if_pos ⟨h1, h2⟩]
    · next hprev => simp [getSeen] at hprev

/-- Witness for C4: the locales `a-b` and `AB` have different lowercased
forms that strip to the same name, so the second call raises the collision
error. -/
theorem c4_witness :
    getLocaleIndex (docIndexOf "test")
        [(docIndexOf "test" ++ stripNonLower (jsToLower "a-b"), jsToLower "a-b")] "AB" =
      .error (collisionMsg "ab" "a-b") :=
  (c4_collision_guard (docIndexOf "test") "a-b" "AB").2.2
    (by decide) (by decide) (by decide)

/-- Claim C5 counterexample: a document that carries an explicit (but
falsy) `workflowLocale` attribute still fans out to every known locale
rather than producing exactly one bulk command. -/
theorem c5_counterexample :
    hasKeyE [("_id", JValue.jstr "x"), ("workflowLocale", JValue.jstr "")]
      "workflowLocale" = true ∧
    getBulkIndexCommandsForDoc [] (docIndexOf "test") (some ["en", "fr"]) []
      [("_id", JValue.jstr "x"), ("workflowLocale", JValue.jstr "")] =
      .ok ([.action ⟨"testaposdocsen", "aposDoc", .jstr "x"⟩, .doc [],
            .action ⟨"testaposdocsfr", "aposDoc", .jstr "x"⟩, .doc []],
           [("testaposdocsen", "en"), ("testaposdocsfr", "fr")]) ∧
    ¬ ([BulkEntry.action ⟨"testaposdocsen", "aposDoc", .jstr "x"⟩, .doc [],
        .action ⟨"testaposdocsfr", "aposDoc", .jstr "x"⟩, .doc []] : List BulkEntry).length = 2 :=
  ⟨rfl, rfl, by decide⟩

/-- Claim C5 (amended): when `doc.workflowLocale` is a truthy string, the
call produces exactly one (action, body) command pair targeting only that
locale's index; when it is falsy or absent, it produces exactly one pair per
known workflow locale (the single locale `default` when no workflow module
is present), all pairs sharing the single projected body. -/
theorem c5_locale_fanout (fields : List String) (docIndex : String)
    (workflowLocales : Option (List String)) (seen : List (String × String))
    (doc : List (String × JValue)) (cmds : List BulkEntry)
    (seen' : List (String × String)) :
    (∀ s : String, getKey doc "workflowLocale" = .jstr s → s ≠ "" →
      getBulkIndexCommandsForDoc fields docIndex workflowLocales seen doc =
        .ok (cmds, seen') →
      cmds = interleaved (projectBody fields doc)
        [⟨docIndex ++ stripNonLower (jsToLower s), "aposDoc", getKey doc "_id"⟩]) ∧
    (isTruthy (getKey doc "workflowLocale") = false →
      getBulkIndexCommandsForDoc fields docIndex workflowLocales seen doc =
        .ok (cmds, seen') →
      ∃ descs : List ActionDescriptor,
        cmds = interleaved (projectBody fields doc) descs ∧
        descs.map (fun d => d.indexName) =
          (match workflowLocales with
           | some ls => ls
           | none => ["default"]).map
            (fun l => docIndex ++ stripNonLower (jsToLower l)) ∧
        ∀ d ∈ descs, d.typeName = "aposDoc" ∧ d.docId = getKey doc "_id") := by
  constructor
  · intro s hwl hne hok
    simp only [getBulkIndexCommandsForDoc, hwl] at hok
    have htruthy : isTruthy (JValue.jstr s) = true := by
      simp [isTruthy, isFalsy, hne]
    rw [if_pos htruthy] at hok
    split at hok
    · cases hok
    · next name seen1 hgl =>
      simp only [Except.ok.injEq, Prod.mk.injEq] at hok
      rw [← hok.1, getLocaleIndex_ok_name _ _ _ _ _ hgl]
      rfl
  · intro hfalsy hok
    simp only [getBulkIndexCommandsForDoc] at hok
    rw [if_neg (by simp [hfalsy])] at hok
    exact fanOut_ok docIndex (projectBody fields doc) (getKey doc "_id") _ seen cmds seen' hok

/-- Witness for C5: a locale-less document with two known workflow locales
fans out into two (action, body) pairs sharing the empty projected body. -/
theorem c5_witness :
    ∃ descs : List ActionDescriptor,
      ([.action ⟨"testaposdocsen", "aposDoc", .jstr "x"⟩, .doc [],
        .action ⟨"testaposdocsfr", "aposDoc", .jstr "x"⟩, .doc []] : List BulkEntry) =
        interleaved (projectBody [] [("_id", JValue.jstr "x")]) descs ∧
      descs.map (fun d => d.indexName) =
        (match (some ["en", "fr"] : Option (List String)) with
         | some ls => ls
         | none => ["default"]).map
          (fun l => docIndexOf "test" ++ stripNonLower (jsToLower l)) ∧
      ∀ d ∈ descs, d.typeName = "aposDoc" ∧
        d.docId = getKey [("_id", JValue.jstr "x")] "_id" :=
  (c5_locale_fanout [] (docIndexOf "test") (some ["en", "fr"]) []
    [("_id", JValue.jstr "x")]
    [.action ⟨"testaposdocsen", "aposDoc", .jstr "x"⟩, .doc [],
     .action ⟨"testaposdocsfr", "aposDoc", .jstr "x"⟩, .doc []]
    [("testaposdocsen", "en"), ("testaposdocsfr", "fr")]).2 rfl rfl

/-- Claim C6: `reindexTask` runs its four stages strictly in the order drop
indexes, create indexes, index all documents, refresh, entirely while
holding the named lock `apostrophe-elasticsearch-reindex`; a failing stage
prevents every later stage from running (no rollback: the trace holds
nothing but the stages already run), and the lock is released on every exit
path including failure. -/
theorem c6_reindex_pipeline (outcome : Stage → Option String) :
    ((reindexTask outcome).1 =
      .lockAcquire "apostrophe-elasticsearch-reindex" ::
        ((ranStages outcome reindexStages).map Event.stageRun ++
          [.lockRelease "apostrophe-elasticsearch-reindex"])) ∧
    (∀ e, outcome .dropIndexes = some e →
      reindexTask outcome =
        ([.lockAcquire "apostrophe-elasticsearch-reindex",
          .stageRun .dropIndexes,
          .lockRelease "apostrophe-elasticsearch-reindex"], some e)) ∧
    (∀ e, outcome .dropIndexes = none → outcome .createIndexes = some e →
      reindexTask outcome =
        ([.lockAcquire "apostrophe-elasticsearch-reindex",
          .stageRun .dropIndexes, .stageRun .createIndexes,
          .lockRelease "apostrophe-elasticsearch-reindex"], some e)) ∧
    (∀ e, outcome .dropIndexes = none → outcome .createIndexes = none →
      outcome .indexAll = some e →
      reindexTask outcome =
        ([.lockAcquire "apostrophe-elasticsearch-reindex",
          .stageRun .dropIndexes, .stageRun .createIndexes, .stageRun .indexAll,
          .lockRelease "apostrophe-elasticsearch-reindex"], some e)) ∧
    (∀ e, outcome .dropIndexes = none → outcome .createIndexes = none →
      outcome .indexAll = none → outcome .refresh = some e →
      reindexTask outcome =
        ([.lockAcquire "apostrophe-elasticsearch-reindex",
          .stageRun .dropIndexes, .stageRun .createIndexes, .stageRun .indexAll,
          .stageRun .refresh,
          .lockRelease "apostrophe-elasticsearch-reindex"], some e)) ∧
    (outcome .dropIndexes = none → outcome .createIndexes = none →
      outcome .indexAll = none → outcome .refresh = none →
      reindexTask outcome =
        ([.lockAcquire "apostrophe-elasticsearch-reindex",
          .stageRun .dropIndexes, .stageRun .createIndexes, .stageRun .indexAll,
          .stageRun .refresh,
          .lockRelease "apostrophe-elasticsearch-reindex"], none)) := by
  refine ⟨?_, ?_, ?_, ?_, ?_, ?_⟩
  · cases h1 : outcome .dropIndexes <;> cases h2 : outcome .createIndexes <;>
      cases h3 : outcome .indexAll <;> cases h4 : outcome .refresh <;>
      simp [reindexTask, withLock, asyncSeries, reindexStages, ranStages, h1, h2, h3, h4]
  · intro e h1
    simp [reindexTask, withLock, asyncSeries, reindexStages, h1]
  · intro e h1 h2
    simp [reindexTask, withLock, asyncSeries, reindexStages, h1, h2]
  · intro e h1 h2 h3
    simp [reindexTask, withLock, asyncSeries, reindexStages, h1, h2, h3]
  · intro e h1 h2 h3 h4
    simp [reindexTask, withLock, asyncSeries, reindexStages, h1, h2, h3, h4]
  · intro h1 h2 h3 h4
    simp [reindexTask, withLock, asyncSeries, reindexStages, h1, h2, h3, h4]

/-- Witness for C6: with the create stage failing, the drop and create
stages run under the lock, index and refresh never run, the error
propagates, and the lock is still released. -/
theorem c6_witness :
    reindexTask outcomeCreateFails =
      ([.lockAcquire "apostrophe-elasticsearch-reindex",
        .stageRun .dropIndexes, .stageRun .createIndexes,
        .lockRelease "apostrophe-elasticsearch-reindex"], some "boom") :=
  (c6_reindex_pipeline outcomeCreateFails).2.2.1 "boom" rfl rfl

/-- Claim C7: `getLocaleSettings` is the deep merge, in increasing priority,
of (a) the global index settings, (b) the global analyzer override, (c) the
per-locale settings keyed by the locale with any trailing `-draft` stripped,
and (d) the per-locale analyzer override; on conflicting keys a later
layer's defined non-mergeable value wins, keys the later layer does not
mention survive, and object-valued entries present on both sides are merged
recursively rather than replaced wholesale (stated for option objects whose
two data-dependent layers are objects, and for merge sources without
duplicate keys). -/
theorem c7_settings_merge (options : List (String × JValue)) (locale : String)
    (hA : isJObj (layerA options) = true)
    (hC : isJObj (layerC options locale) = true) :
    (getLocaleSettings options locale =
      List.foldl lmerge (.jobj [])
        [layerA options, layerB options, layerC options locale,
         layerD options locale]) ∧
    (∀ (o s : List (String × JValue)) (k : String) (v : JValue),
      (s.map Prod.fst).Nodup → getEntry s k = some v → v ≠ .jsUndefined →
      isJObj v = false → isJArr v = false →
      getEntry (lmergePairs o s) k = some v) ∧
    (∀ (o s : List (String × JValue)) (k : String)
       (oo ss : List (String × JValue)),
      (s.map Prod.fst).Nodup → getEntry o k = some (.jobj oo) →
      getEntry s k = some (.jobj ss) →
      getEntry (lmergePairs o s) k = some (.jobj (lmergePairs oo ss))) ∧
    (∀ (o s : List (String × JValue)) (k : String),
      (∀ p ∈ s, p.1 ≠ k) → getEntry (lmergePairs o s) k = getEntry o k) := by
  refine ⟨getLocaleSettings_layers options locale hA hC, ?_, ?_, ?_⟩
  · intro o s k v hnd he hne hno hna
    rw [lmergePairs_entry s o k v hnd he hne, lmerge_scalar _ v hne hno hna]
  · intro o s k oo ss hnd ho hs
    rw [lmergePairs_entry s o k _ hnd hs (fun hc => JValue.noConfusion hc)]
    rw [getKey_eq_getEntry, ho]
    rfl
  · intro o s k h
    exact lmergePairs_untouched s o k h

/-- Witness for C7 at a concrete options object exercising all four layers,
with the locale `en-draft` (stripped to `en`). -/
theorem c7_witness :
    getLocaleSettings optionsW "en-draft" =
      List.foldl lmerge (.jobj [])
        [layerA optionsW, layerB optionsW, layerC optionsW "en-draft",
         layerD optionsW "en-draft"] :=
  (c7_settings_merge optionsW "en-draft" rfl rfl).1

/-- Claim C8 counterexample: with base name `x2` the returned index name
`x2aposdocsen` contains a digit, refuting that every returned name consists
only of lowercase ASCII letters. -/
theorem c8_counterexample :
    getLocaleIndex (docIndexOf "x2") [] "en" =
      .ok ("x2aposdocsen", [("x2aposdocsen", "en")]) ∧
    ("x2aposdocsen" : String).data.all isLowerAZ = false :=
  ⟨rfl, by decide⟩

/-- Claim C8 (amended): every name `getLocaleIndex` returns is exactly the
fixed `docIndex` base concatenated with the locale lowercased and stripped
of every character outside `a-z`; the locale-derived part consists only of
lowercase ASCII letters, and the whole physical name does so whenever the
base does — which can fail, since the base is only lowercased, never
stripped. -/
theorem c8_index_name (docIndex locale name : String)
    (seen seen' : List (String × String))
    (hok : getLocaleIndex docIndex seen locale = .ok (name, seen')) :
    name = docIndex ++ stripNonLower (jsToLower locale) ∧
    (stripNonLower (jsToLower locale)).data.all isLowerAZ = true ∧
    (docIndex.data.all isLowerAZ = true → name.data.all isLowerAZ = true) := by
  have hname := getLocaleIndex_ok_name docIndex seen locale name seen' hok
  have hstrip : ∀ s : String, (stripNonLower s).data.all isLowerAZ = true := by
    intro s
    rw [List.all_eq_true]
    intro c hc
    have hmemf := List.mem_filter.mp hc
    simpa [isLowerAZ] using hmemf.2
  refine ⟨hname, hstrip _, fun hbase => ?_⟩
  rw [hname, String.data_append, List.all_append, hbase, hstrip (jsToLower locale)]
  rfl

/-- Witness for C8 at base `test` and locale `en-US`. -/
theorem c8_witness :
    ("testaposdocsenus" : String) =
      docIndexOf "test" ++ stripNonLower (jsToLower "en-US") ∧
    (stripNonLower (jsToLower "en-US")).data.all isLowerAZ = true ∧
    ((docIndexOf "test").data.all isLowerAZ = true →
      ("testaposdocsenus" : String).data.all isLowerAZ = true) :=
  c8_index_name (docIndexOf "test") "en-US" "testaposdocsenus" []
    [("testaposdocsenus", "en-us")] rfl

end ApostropheES
